import Mathlib

/-!
# Verification of the codex-app-server bridge core

Shallow embedding of the protocol-bridging engine of `codex-app-server`:
the subprocess transport (`lib/appserverClient.js` / `src/client.ts`,
`internal/appserver/client.go`), the line framer (`_onStdoutData`), the
inbound dispatch (`_handleLine` / `readLoop`), the auth guard
(`constantTimeEqual` / `isAuthorized`) and the `POST /` handler of
`lib/server.js` / `src/server.ts`.

Conventions of the embedding:
* Byte buffers are `List Nat` (`Bytes`), one `Nat` per byte; the newline
  byte is `10` and the carriage return is `13`.
* `JSON.parse` is external to the repository; an inbound line is therefore
  presented to the dispatch function together with its parse result, an
  `Option Json` (`none` models a parse failure).
* Promise resolution / channel delivery is made explicit as an `Event`
  value returned next to the post-state.
-/

/-- JSON values, the result of a successful `JSON.parse` of one line. -/
inductive Json where
  | null
  | bool (b : Bool)
  | num (n : Int)
  | str (s : String)
  | arr (elems : List Json)
  | obj (fields : List (String × Json))

/-- JavaScript truthiness of a parsed JSON value (`!!v`): `null`, `false`,
`0` and the empty string are falsy; objects and arrays are always truthy. -/
def jsTruthy : Json → Bool
  | Json.null => false
  | Json.bool b => b
  | Json.num n => !(n == 0)
  | Json.str s => !(s == "")
  | Json.arr _ => true
  | Json.obj _ => true

/-- Property access `v.k` on a parsed JSON value: defined (first match) on
objects, `undefined` (`none`) on every other JSON value — primitives and
arrays have no own property named by a key such as `"method"` or `"id"`. -/
def jsGet : Json → String → Option Json
  | Json.obj fields, k => fields.lookup k
  | _, _ => none

/-! ## Auth guard

From `lib/server.js` (`constantTimeEqual`, and the inline header check of
`src/server.ts`'s `isAuthorized`).  Secrets and header values are compared
as their UTF-8 byte sequences, modelled directly as `Bytes`. -/

/-- A byte buffer: one `Nat` per byte. -/
abbrev Bytes := List Nat

/-- Modelled from the spec: Node's `crypto.timingSafeEqual` (standard
library, not part of this repository) ORs together the XOR of every byte
pair of its two equal-length inputs and reports whether the accumulated
word is zero, touching every byte pair regardless of where the first
mismatch occurs.  The second component counts the byte comparisons
performed, making the cost of the scan explicit. -/
def ctScan : List (Nat × Nat) → Nat × Nat
  | [] => (0, 0)
  | (x, y) :: rest =>
    let (acc, steps) := ctScan rest
    (acc ||| (x ^^^ y), steps + 1)

/-- Result of `crypto.timingSafeEqual a b` for equal-length buffers. -/
def timingSafeEqual (a b : Bytes) : Bool :=
  (ctScan (a.zip b)).1 == 0

/-- Number of byte comparisons `timingSafeEqual` performs. -/
def timingSafeEqualCost (a b : Bytes) : Nat :=
  (ctScan (a.zip b)).2

/-- `constantTimeEqual` from `lib/server.js`: buffers of different length
are unequal (reported without scanning); equal-length buffers are compared
by `crypto.timingSafeEqual`. -/
def constantTimeEqual (a b : Bytes) : Bool :=
  if a.length != b.length then false else timingSafeEqual a b

/-- `isAuthorized` from `src/server.ts` (the JS `lib/server.js` handlers
inline the same check): an empty configured secret authorizes everything;
otherwise the request must carry a truthy `x-codex-secret` header value
(`none` models an absent header) equal to the secret. -/
def isAuthorized (secret : Bytes) (header : Option Bytes) : Bool :=
  if secret.isEmpty then true
  else
    match header with
    | none => false
    | some v => !v.isEmpty && constantTimeEqual v secret

/-! ## Subprocess transport: pending-call table and dispatch

From `lib/appserverClient.js` (class `AppServerClient`); `src/client.ts`
and the Go `internal/appserver/client.go` implement the same logic.

The `pending` JS `Map` is modelled as an association list from the integer
Correlation ID to the identity of the waiting caller (an opaque `Nat`
token standing for the promise `resolve`/`reject` pair).  All keys ever
inserted are integers: `call` uses `this.nextId += 1` and `callWithId`
receives the WS gateway's integer `internalId`.  A subscriber callback is
modelled by the one observable the dispatch path depends on: whether the
callback throws when invoked (`Bool`). -/

/-- `Map.get` on the pending table. -/
def pendingGet (p : List (Int × Nat)) (id : Int) : Option Nat :=
  (p.find? (fun e => e.1 == id)).map (fun e => e.2)

/-- `Map.delete` on the pending table (keys are unique, so filtering the
key out removes exactly the one entry). -/
def pendingDelete (p : List (Int × Nat)) (id : Int) : List (Int × Nat) :=
  p.filter (fun e => !(e.1 == id))

/-- `Map.set` on the pending table: replace the entry if the key is
present, otherwise append (JS `Map` preserves insertion order). -/
def pendingSet (p : List (Int × Nat)) (id : Int) (caller : Nat) : List (Int × Nat) :=
  if p.any (fun e => e.1 == id) then
    p.map (fun e => if e.1 == id then (id, caller) else e)
  else
    p ++ [(id, caller)]

/-- State of one `AppServerClient` instance relevant to call correlation
and notification fan-out. -/
structure ClientState where
  nextId : Int
  pending : List (Int × Nat)
  nextSubId : Nat
  subscribers : List (Nat × Bool)
deriving DecidableEq

/-- Everything one inbound line or pending-call action observably does:
a decode warning, a resolution of the matching waiter, a silent stale
drop, a rejection of a waiter, or a notification fan-out (subscriber ids
that received the line, and those whose callback threw and were logged). -/
inductive RejectReason where
  | timedOut
  | aborted
  | writeError
deriving DecidableEq

inductive Event where
  | failedDecode
  | delivered (caller : Nat) (rawLine : String)
  | staleDropped
  | rejected (id : Int) (reason : RejectReason)
  | notification (deliveredTo warnedFor : List Nat)
deriving DecidableEq

/-- The guard of `_handleLine`'s response branch:
`env && hasOwnProperty(env, "id") && env.id !== null && env.id !== undefined`.
Only objects own an `id` property; `JSON.parse` never yields `undefined`. -/
def hasNonNullId (env : Json) : Bool :=
  match env with
  | Json.obj fields =>
    match fields.lookup "id" with
    | some Json.null => false
    | some _ => true
    | none => false
  | _ => false

/-- The numeric value of `env.id`, when it is a number.  A non-numeric
`id` never matches the pending table: JS `Map.get` uses SameValueZero and
every key inserted by `call`/`callWithId` is a number. -/
def envIdNum (env : Json) : Option Int :=
  match env with
  | Json.obj fields =>
    match fields.lookup "id" with
    | some (Json.num n) => some n
    | _ => none
  | _ => none

/-- The notification fan-out loop of `_handleLine`: invoke every current
subscriber callback in registration order; a throwing callback is caught
and its subscriber id logged (`dropping notification for subscriber=...`).
Returns (ids delivered to, ids warned about). -/
def notifySubscribers : List (Nat × Bool) → List Nat × List Nat
  | [] => ([], [])
  | (subId, throws) :: rest =>
    let (d, w) := notifySubscribers rest
    if throws then (d, subId :: w) else (subId :: d, w)

/-- `AppServerClient._handleLine` (dispatch of one framed line): a line
that fails to parse is warned about and dropped; a line with a non-null
`id` resolves and removes the matching pending waiter or, when no waiter
matches, is silently discarded; every other line is fanned out to all
subscribers as a notification. -/
def handleLine (s : ClientState) (parsed : Option Json) (rawLine : String) :
    ClientState × Event :=
  match parsed with
  | none => (s, Event.failedDecode)
  | some env =>
    if hasNonNullId env then
      match envIdNum env with
      | some id =>
        match pendingGet s.pending id with
        | some caller =>
          ({ s with pending := pendingDelete s.pending id }, Event.delivered caller rawLine)
        | none => (s, Event.staleDropped)
      | none => (s, Event.staleDropped)
    else
      let (d, w) := notifySubscribers s.subscribers
      (s, Event.notification d w)

/-- `AppServerClient.call`: allocate the next Correlation ID
(`this.nextId += 1`) and register the caller's pending entry
(`this.pending.set(id, entry)`).  Returns the post-state and the id. -/
def callStep (s : ClientState) (caller : Nat) : ClientState × Int :=
  let id := s.nextId + 1
  ({ s with nextId := id, pending := pendingSet s.pending id caller }, id)

/-- `AppServerClient.callWithId` (TS): register a caller-supplied id. -/
def callWithId (s : ClientState) (id : Int) (caller : Nat) : ClientState :=
  { s with pending := pendingSet s.pending id caller }

/-- The timeout handler installed by `call`/`callWithId`:
`this.pending.delete(id)` and then `reject(new Error("rpc call timed out"))`;
the entry is removed before the failure is signalled. -/
def timeoutFire (s : ClientState) (id : Int) : ClientState × Event :=
  ({ s with pending := pendingDelete s.pending id }, Event.rejected id RejectReason.timedOut)

/-- The abort handler installed by `call`/`callWithId` (and its
already-aborted fast path): `this.pending.delete(id)` then
`reject(new Error("aborted"))`. -/
def abortFire (s : ClientState) (id : Int) : ClientState × Event :=
  ({ s with pending := pendingDelete s.pending id }, Event.rejected id RejectReason.aborted)

/-- The `catch` around `_writeJsonLine` in `call`/`callWithId`:
`this.pending.delete(id)` then `reject(err)`. -/
def writeFailFire (s : ClientState) (id : Int) : ClientState × Event :=
  ({ s with pending := pendingDelete s.pending id }, Event.rejected id RejectReason.writeError)

/-- `AppServerClient.subscribeNotifications`: allocate the next
subscription id and register the callback (whose observable behaviour is
whether it throws). -/
def subscribeStep (s : ClientState) (throws : Bool) : ClientState × Nat :=
  let id := s.nextSubId + 1
  ({ s with nextSubId := id, subscribers := s.subscribers ++ [(id, throws)] }, id)

/-- The unsubscribe closure returned by `subscribeNotifications`:
`this.subscribers.delete(id)`. -/
def unsubscribeStep (s : ClientState) (subId : Nat) : ClientState :=
  { s with subscribers := s.subscribers.filter (fun e => !(e.1 == subId)) }

/-- `AppServerClient._onClosed`: reject and remove every pending entry and
clear all subscribers. -/
def onClosed (s : ClientState) : ClientState :=
  { s with pending := [], subscribers := [] }

/-- Transport mode selected at startup (`--protocol ws|sse` in
`src/main.ts`); the two are never mixed on one running instance
(`startServer` installs either the WS upgrade handler or the SSE/POST
handlers, not both). -/
inductive Mode where
  | ws
  | sse
deriving DecidableEq

/-- Startup phase of the bridge: `starting` while `startAndInitialize`
awaits the `initialize` response, `ready` once that await has resolved and
the HTTP/WS handlers are installed (`startServer` awaits
`client.startAndInitialize()` before creating the server). -/
inductive Phase where
  | starting
  | ready
deriving DecidableEq

/-- State of one running bridge: the selected mode, the startup phase, the
transport client, and the WS gateway's own id counter
(`let internalId = 0` in `src/server.ts`). -/
structure BridgeState where
  mode : Mode
  phase : Phase
  client : ClientState
  wsInternalId : Int
deriving DecidableEq

/-- The bridge right after `startAndInitialize` has issued the
`initialize` request: the transport counter has allocated id 1 to the
handshake waiter `c0` and no gateway request exists yet. -/
def startState (m : Mode) (c0 : Nat) : BridgeState :=
  ⟨m, Phase.starting, (callStep ⟨0, [], 0, []⟩ c0).1, 0⟩

/-- One observable action of the bridge.  While `starting`, the only
pending entry is the handshake's and no handler can issue a call (the
server is created only after the await); `startAndInitialize` resolves —
`handshakeDone` — exactly when the `initialize` entry has been resolved,
rejected or abandoned, so its id is no longer pending.  Once `ready`, the
SSE `POST /` handler issues `call` (transport counter `nextId += 1`) and
the WS message handler issues `callWithId` with the gateway's own
`internalId += 1`; each mode uses only its own allocation path.  Dispatch,
timeouts, aborts, write failures, subscriptions and shutdown are common to
both modes and phases. -/
inductive BridgeStep : BridgeState → BridgeState → Prop
  | sseCall (c : ClientState) (w : Int) (caller : Nat) :
      BridgeStep ⟨Mode.sse, Phase.ready, c, w⟩
        ⟨Mode.sse, Phase.ready, (callStep c caller).1, w⟩
  | wsCall (c : ClientState) (w : Int) (caller : Nat) :
      BridgeStep ⟨Mode.ws, Phase.ready, c, w⟩
        ⟨Mode.ws, Phase.ready, callWithId c (w + 1) caller, w + 1⟩
  | handshakeDone (m : Mode) (c : ClientState) (w : Int)
      (h : pendingGet c.pending 1 = none) :
      BridgeStep ⟨m, Phase.starting, c, w⟩ ⟨m, Phase.ready, c, w⟩
  | handle (m : Mode) (ph : Phase) (c : ClientState) (w : Int)
      (parsed : Option Json) (raw : String) :
      BridgeStep ⟨m, ph, c, w⟩ ⟨m, ph, (handleLine c parsed raw).1, w⟩
  | timeout (m : Mode) (ph : Phase) (c : ClientState) (w id : Int) :
      BridgeStep ⟨m, ph, c, w⟩ ⟨m, ph, (timeoutFire c id).1, w⟩
  | abort (m : Mode) (ph : Phase) (c : ClientState) (w id : Int) :
      BridgeStep ⟨m, ph, c, w⟩ ⟨m, ph, (abortFire c id).1, w⟩
  | writeFail (m : Mode) (ph : Phase) (c : ClientState) (w id : Int) :
      BridgeStep ⟨m, ph, c, w⟩ ⟨m, ph, (writeFailFire c id).1, w⟩
  | subscribe (m : Mode) (ph : Phase) (c : ClientState) (w : Int) (throws : Bool) :
      BridgeStep ⟨m, ph, c, w⟩ ⟨m, ph, (subscribeStep c throws).1, w⟩
  | unsubscribe (m : Mode) (ph : Phase) (c : ClientState) (w : Int) (subId : Nat) :
      BridgeStep ⟨m, ph, c, w⟩ ⟨m, ph, unsubscribeStep c subId, w⟩
  | closed (m : Mode) (ph : Phase) (c : ClientState) (w : Int) :
      BridgeStep ⟨m, ph, c, w⟩ ⟨m, ph, onClosed c, w⟩

/-- The Correlation ID invariant of every reachable bridge state: pending
keys are pairwise distinct (at most one waiter per id); during the
handshake only the `initialize` id 1 can be pending and both counters sit
at their initial values; once ready, every pending key is bounded by the
counter of the mode's own allocation path, so the next id that path
allocates is always fresh. -/
def BridgeInv (b : BridgeState) : Prop :=
  (b.client.pending.map Prod.fst).Nodup ∧
  (b.phase = Phase.starting →
    (∀ k ∈ b.client.pending.map Prod.fst, k = 1) ∧
    b.client.nextId = 1 ∧ b.wsInternalId = 0) ∧
  (b.phase = Phase.ready → b.mode = Mode.sse →
    ∀ k ∈ b.client.pending.map Prod.fst, k ≤ b.client.nextId) ∧
  (b.phase = Phase.ready → b.mode = Mode.ws →
    ∀ k ∈ b.client.pending.map Prod.fst, k ≤ b.wsInternalId)

instance (b : BridgeState) : Decidable (BridgeInv b) := by
  unfold BridgeInv
  infer_instance

/-- A response envelope as produced by the subprocess: `{"id": i, ...}`. -/
def respEnv (i : Int) : Json :=
  Json.obj [("id", Json.num i)]

/-- Issue one `call` per caller token, in order; returns the final state
and the (caller, assigned Correlation ID) list. -/
def issueCalls (s : ClientState) : List Nat → ClientState × List (Nat × Int)
  | [] => (s, [])
  | c :: cs =>
    let (s1, id) := callStep s c
    let (s2, rest) := issueCalls s1 cs
    (s2, (c, id) :: rest)

/-- Feed a list of response lines (each given by its envelope id and raw
text) through `_handleLine`, collecting the events. -/
def processResponses (s : ClientState) : List (Int × String) → ClientState × List Event
  | [] => (s, [])
  | (i, raw) :: rs =>
    let (s1, e) := handleLine s (some (respEnv i)) raw
    let (s2, es) := processResponses s1 rs
    (s2, e :: es)

/-! ## `POST /` handler

From `lib/server.js` `startServer` (the TS `src/server.ts` SSE branch is
identical).  Stages external to the repository — reading the body,
`JSON.parse`, and the awaited subprocess call — are inputs: `parsed` is
the parse result of the body (`none` = `JSON.parse` threw) and `result`
is the outcome of `client.call` (only consulted once the guards pass). -/

structure HttpResponse where
  status : Nat
  body : String
deriving DecidableEq

/-- Outcome of the awaited `client.call`: the raw response line, or any
failure (timeout, abort, write error, transport closed). -/
inductive CallOutcome where
  | ok (respLine : String)
  | failed
deriving DecidableEq

/-- The `!body || !body.method` guard: the parsed body and its `method`
property must both be truthy. -/
def bodyHasMethod (body : Json) : Bool :=
  jsTruthy body &&
    (match jsGet body "method" with
     | some v => jsTruthy v
     | none => false)

/-- The `POST /` request handler of `lib/server.js`: auth check, body
parse check, method check, then the subprocess call; a successful call's
raw response line is the 200 body, verbatim. -/
def handlePost (secret : Bytes) (header : Option Bytes) (parsed : Option Json)
    (result : CallOutcome) : HttpResponse :=
  if !(isAuthorized secret header) then
    { status := 401, body := "unauthorized" }
  else
    match parsed with
    | none => { status := 400, body := "invalid JSON body" }
    | some body =>
      if !(bodyHasMethod body) then
        { status := 400, body := "missing method" }
      else
        match result with
        | CallOutcome.failed => { status := 502, body := "rpc call failed" }
        | CallOutcome.ok respLine => { status := 200, body := respLine }

/-! ## Line framer

From `AppServerClient._onStdoutData` in `lib/appserverClient.js`
(`onStdoutData` in `src/client.ts` is identical).  The loop repeatedly
takes the prefix of the buffer up to the first `\n` (byte `10`), strips a
trailing `\r` (byte `13`), skips empty lines and hands the rest to
`_handleLine`; we return the yielded lines instead.  The recursion is
fuelled by the buffer length, which bounds the number of newlines. -/

def maxLineBytes : Nat := 10 * 1024 * 1024

/-- `this.stdoutBuffer.indexOf(0x0a)` plus the two `subarray` slices:
split the buffer at its first newline, or report that none exists. -/
def takeLine : Bytes → Option (Bytes × Bytes)
  | [] => none
  | b :: rest =>
    if b == 10 then some ([], rest)
    else
      match takeLine rest with
      | none => none
      | some (l, r) => some (b :: l, r)

/-- Strip one trailing carriage return
(`lineBuf[lineBuf.length - 1] === 0x0d`). -/
def stripCR (l : Bytes) : Bytes :=
  if l.getLast? == some 13 then l.dropLast else l

/-- The `while (true)` line-extraction loop: collect every complete line
(carriage return stripped, empty lines skipped) and the unterminated
remainder.  One unit of fuel is spent per extracted line; `buf.length`
units always suffice. -/
def framerLoop : Nat → Bytes → List Bytes × Bytes
  | 0, buf => ([], buf)
  | fuel + 1, buf =>
    match takeLine buf with
    | none => ([], buf)
    | some (l, rest) =>
      let line := stripCR l
      let (ls, r) := framerLoop fuel rest
      (if line.isEmpty then ls else line :: ls, r)

/-- `AppServerClient._onStdoutData`: append the chunk; if the combined
buffer exceeds twice the maximum the whole buffer is discarded (safety
limit); otherwise every complete line is extracted, and a remainder that
exceeds the maximum line size is discarded ("stdout line exceeded max
size; dropping").  Returns (lines handed to `_handleLine`, new buffer). -/
def onStdoutData (maxBytes : Nat) (buffer chunk : Bytes) : List Bytes × Bytes :=
  if chunk.isEmpty then ([], buffer)
  else
    let buf := buffer ++ chunk
    if buf.length > maxBytes * 2 then ([], [])
    else
      let (lines, rest) := framerLoop buf.length buf
      if rest.length > maxBytes then (lines, []) else (lines, rest)

/-! ## Go notification broadcast

From `internal/appserver/client.go`: `SubscribeNotifications` creates a
buffered channel of capacity 256 per subscriber, and
`broadcastNotification` performs a nonblocking send (`select` with a
`default` branch) to each subscriber's channel, logging a drop warning
when the buffer is full.  A channel is modelled by the list of messages
currently buffered in it. -/

def subscriberQueueCap : Nat := 256

structure GoSubscriber where
  id : Int
  queue : List String
deriving DecidableEq

/-- The nonblocking send of `broadcastNotification`'s loop body:
`select { case ch <- msg: default: log }`.  Never waits — when the buffer
is full the message is dropped and the drop is reported (`true`). -/
def sendOrDrop (line : String) (sub : GoSubscriber) : GoSubscriber × Bool :=
  if sub.queue.length < subscriberQueueCap then
    ({ sub with queue := sub.queue ++ [line] }, false)
  else
    (sub, true)

/-- `Client.broadcastNotification`: nonblocking send to every subscriber,
collecting the ids whose notification was dropped (and logged). -/
def broadcastNotification (subs : List GoSubscriber) (line : String) :
    List GoSubscriber × List Int :=
  match subs with
  | [] => ([], [])
  | sub :: rest =>
    let (sub1, dropped) := sendOrDrop line sub
    let (rest1, warned) := broadcastNotification rest line
    (sub1 :: rest1, if dropped then sub.id :: warned else warned)
/-! ## Helper lemmas about the pending table -/

theorem pendingGet_delete_ne (p : List (Int × Nat)) (i j : Int) (hij : j ≠ i) :
    pendingGet (pendingDelete p i) j = pendingGet p j := by
  induction p with
  | nil => rfl
  | cons e rest ih =>
    by_cases he : e.1 = i
    · have h1 : pendingDelete (e :: rest) i = pendingDelete rest i := by
        simp [pendingDelete, List.filter_cons, he]
      have h2 : pendingGet (e :: rest) j = pendingGet rest j := by
        simp [pendingGet, List.find?_cons, show (e.1 == j) = false by simp [he, Ne.symm hij]]
      rw [h1, h2, ih]
    · have h1 : pendingDelete (e :: rest) i = e :: pendingDelete rest i := by
        simp [pendingDelete, List.filter_cons, he]
      by_cases hej : e.1 = j
      · rw [h1]
        simp [pendingGet, List.find?_cons, hej]
      · rw [h1]
        simp only [pendingGet, List.find?_cons, show (e.1 == j) = false by simp [hej],
          cond_false]
        simpa [pendingGet] using ih

theorem pendingDelete_keys (p : List (Int × Nat)) (i : Int) :
    (pendingDelete p i).map Prod.fst = (p.map Prod.fst).filter (fun k => !(k == i)) := by
  induction p with
  | nil => rfl
  | cons e rest ih =>
    by_cases he : e.1 = i
    · simpa [pendingDelete, List.filter_cons, he] using ih
    · simpa [pendingDelete, List.filter_cons, he] using ih

theorem pendingGet_isSome_of_mem (p : List (Int × Nat)) (i : Int)
    (h : i ∈ p.map Prod.fst) : ∃ c, pendingGet p i = some c := by
  induction p with
  | nil => simp at h
  | cons e rest ih =>
    by_cases he : e.1 = i
    · exact ⟨e.2, by simp [pendingGet, List.find?_cons, he]⟩
    · simp only [List.map_cons, List.mem_cons] at h
      rcases h with h | h
      · exact absurd h.symm he
      · obtain ⟨c, hc⟩ := ih h
        refine ⟨c, ?_⟩
        simpa [pendingGet, List.find?_cons, show (e.1 == i) = false by simp [he]] using hc

theorem pendingGet_of_mem_nodup (p : List (Int × Nat)) (i : Int) (c : Nat)
    (hnd : (p.map Prod.fst).Nodup) (hm : (i, c) ∈ p) : pendingGet p i = some c := by
  induction p with
  | nil => simp at hm
  | cons e rest ih =>
    rcases List.mem_cons.mp hm with h | h
    · subst h; simp [pendingGet, List.find?_cons]
    · have hne : e.1 ≠ i := by
        intro hcontra
        have hmem : i ∈ rest.map Prod.fst := List.mem_map.mpr ⟨(i, c), h, rfl⟩
        simp only [List.map_cons, List.nodup_cons] at hnd
        exact hnd.1 (hcontra ▸ hmem)
      simp only [pendingGet, List.find?_cons, show (e.1 == i) = false by simp [hne], cond_false]
      have hnd' : (rest.map Prod.fst).Nodup := by
        simp only [List.map_cons, List.nodup_cons] at hnd
        exact hnd.2
      simpa [pendingGet] using ih hnd' h

theorem pendingSet_of_not_mem (p : List (Int × Nat)) (id : Int) (c : Nat)
    (h : id ∉ p.map Prod.fst) : pendingSet p id c = p ++ [(id, c)] := by
  have hany : p.any (fun e => e.1 == id) = false := by
    rw [List.any_eq_false]
    intro e he
    simp only [beq_iff_eq]
    intro hcontra
    exact h (List.mem_map.mpr ⟨e, he, hcontra⟩)
  simp [pendingSet, hany]

/-! ## Dispatch of one response line -/

theorem handleLine_respEnv (s : ClientState) (i : Int) (raw : String) :
    handleLine s (some (respEnv i)) raw =
      match pendingGet s.pending i with
      | some caller =>
        ({ s with pending := pendingDelete s.pending i }, Event.delivered caller raw)
      | none => (s, Event.staleDropped) := by
  simp [handleLine, respEnv, hasNonNullId, envIdNum, List.lookup]

/-- Feeding any sequence of response lines with pairwise-distinct ids, all
of them pending, delivers each raw line to exactly the caller registered
under the line's own id — independent of the order of the lines. -/
theorem processResponses_delivers (rs : List (Int × String)) (s : ClientState)
    (hnd : (s.pending.map Prod.fst).Nodup)
    (hrnd : (rs.map Prod.fst).Nodup)
    (hmem : ∀ r ∈ rs, r.1 ∈ s.pending.map Prod.fst) :
    (processResponses s rs).2
      = rs.map (fun r => Event.delivered ((pendingGet s.pending r.1).getD 0) r.2) := by
  induction rs generalizing s with
  | nil => rfl
  | cons r rs ih =>
    obtain ⟨i, raw⟩ := r
    have hi : i ∈ s.pending.map Prod.fst := hmem (i, raw) (List.mem_cons_self _ _)
    obtain ⟨c, hc⟩ := pendingGet_isSome_of_mem _ _ hi
    have hstep : handleLine s (some (respEnv i)) raw =
        ({ s with pending := pendingDelete s.pending i }, Event.delivered c raw) := by
      rw [handleLine_respEnv, hc]
    have hrnd' : (rs.map Prod.fst).Nodup := (List.nodup_cons.mp hrnd).2
    have hinotin : i ∉ rs.map Prod.fst := (List.nodup_cons.mp hrnd).1
    have hnd' : ((pendingDelete s.pending i).map Prod.fst).Nodup := by
      rw [pendingDelete_keys]; exact hnd.filter _
    have hmem' : ∀ r ∈ rs, r.1 ∈ (pendingDelete s.pending i).map Prod.fst := by
      intro r hr
      rw [pendingDelete_keys, List.mem_filter]
      refine ⟨hmem r (List.mem_cons_of_mem _ hr), ?_⟩
      simp only [Bool.not_eq_true', beq_eq_false_iff_ne, ne_eq]
      intro hcontra
      exact hinotin (hcontra ▸ List.mem_map.mpr ⟨r, hr, rfl⟩)
    have htail := ih { s with pending := pendingDelete s.pending i } hnd' hrnd' hmem'
    simp only [processResponses, hstep, htail, List.map_cons, hc, Option.getD_some,
      List.cons.injEq, true_and]
    refine List.map_congr_left ?_
    intro r hr
    have hne : r.1 ≠ i := by
      intro hcontra
      exact hinotin (hcontra ▸ List.mem_map.mpr ⟨r, hr, rfl⟩)
    rw [pendingGet_delete_ne _ _ _ hne]

/-! ## Issuing calls: assigned Correlation IDs -/

theorem issueCalls_nextId (cs : List Nat) (s : ClientState) :
    (issueCalls s cs).1.nextId = s.nextId + cs.length := by
  induction cs generalizing s with
  | nil => simp [issueCalls]
  | cons c cs ih =>
    simp only [issueCalls, callStep]
    rw [ih]
    simp only [List.length_cons]
    push_cast
    ring

theorem issueCalls_ids (cs : List Nat) (s : ClientState) :
    (issueCalls s cs).2.map Prod.snd
      = (List.range cs.length).map (fun (k : Nat) => s.nextId + 1 + (k : Int)) := by
  induction cs generalizing s with
  | nil => simp [issueCalls]
  | cons c cs ih =>
    simp only [issueCalls, callStep, List.map_cons]
    rw [ih]
    simp only [List.length_cons, List.range_succ_eq_map, List.map_cons, List.map_map]
    refine List.cons_eq_cons.mpr ⟨by push_cast; ring, ?_⟩
    refine List.map_congr_left ?_
    intro k _
    simp only [Function.comp_apply]
    push_cast
    ring

theorem issueCalls_ids_nodup (cs : List Nat) (s : ClientState) :
    ((issueCalls s cs).2.map Prod.snd).Nodup := by
  rw [issueCalls_ids]
  have hinj : Function.Injective (fun (k : Nat) => s.nextId + 1 + (k : Int)) := by
    intro a b hab
    simp only at hab
    omega
  exact (List.nodup_range _).map hinj

theorem issueCalls_pending (cs : List Nat) (s : ClientState)
    (hb : ∀ k ∈ s.pending.map Prod.fst, k ≤ s.nextId) :
    (issueCalls s cs).1.pending
      = s.pending ++ (issueCalls s cs).2.map (fun a => (a.2, a.1)) := by
  induction cs generalizing s with
  | nil => simp [issueCalls]
  | cons c cs ih =>
    have hfresh : (s.nextId + 1) ∉ s.pending.map Prod.fst := by
      intro hmem
      have := hb _ hmem
      omega
    have hset : pendingSet s.pending (s.nextId + 1) c = s.pending ++ [(s.nextId + 1, c)] :=
      pendingSet_of_not_mem _ _ _ hfresh
    have hb' : ∀ k ∈ (s.pending ++ [(s.nextId + 1, c)]).map Prod.fst, k ≤ s.nextId + 1 := by
      intro k hk
      rw [List.map_append, List.mem_append] at hk
      rcases hk with hk | hk
      · have := hb k hk; omega
      · simp only [List.map_cons, List.map_nil, List.mem_singleton] at hk
        omega
    have hrec := ih ({ s with nextId := s.nextId + 1, pending := s.pending ++ [(s.nextId + 1, c)] }) hb'
    simp only [issueCalls, callStep, hset, List.map_cons]
    simp only at hrec
    rw [hrec]
    simp [List.append_assoc]

/-! ## C1: responses are routed to callers by Correlation ID -/

/-- C1. For every set of N concurrent calls issued before any of them is
answered, each caller receives exactly the response line whose envelope id
equals its own Correlation ID, regardless of the order in which the
subprocess emits the responses: processing the response lines in any
permutation of the assigned ids delivers each raw line to the pending
caller registered under the line's own id, and the pending table after
issuing maps every assigned id to its caller. -/
theorem correlation_routes_responses (s0 : ClientState) (h0 : s0.pending = [])
    (callers : List Nat) (rs : List (Int × String))
    (hperm : (rs.map Prod.fst).Perm ((issueCalls s0 callers).2.map Prod.snd)) :
    (processResponses (issueCalls s0 callers).1 rs).2
      = rs.map (fun r =>
          Event.delivered ((pendingGet (issueCalls s0 callers).1.pending r.1).getD 0) r.2)
    ∧ ∀ c i, (c, i) ∈ (issueCalls s0 callers).2 →
        pendingGet (issueCalls s0 callers).1.pending i = some c := by
  have hb : ∀ k ∈ s0.pending.map Prod.fst, k ≤ s0.nextId := by simp [h0]
  have hpend := issueCalls_pending callers s0 hb
  rw [h0, List.nil_append] at hpend
  have hkeys : (issueCalls s0 callers).1.pending.map Prod.fst
      = (issueCalls s0 callers).2.map Prod.snd := by
    rw [hpend, List.map_map]
    rfl
  have hnd : ((issueCalls s0 callers).1.pending.map Prod.fst).Nodup := by
    rw [hkeys]
    exact issueCalls_ids_nodup callers s0
  have hrnd : (rs.map Prod.fst).Nodup := by
    rw [hperm.nodup_iff]
    rw [hkeys] at hnd
    exact hnd
  have hmem : ∀ r ∈ rs, r.1 ∈ (issueCalls s0 callers).1.pending.map Prod.fst := by
    intro r hr
    rw [hkeys]
    exact hperm.subset (List.mem_map.mpr ⟨r, hr, rfl⟩)
  refine ⟨processResponses_delivers rs _ hnd hrnd hmem, ?_⟩
  intro c i hci
  refine pendingGet_of_mem_nodup _ _ _ hnd ?_
  rw [hpend]
  exact List.mem_map.mpr ⟨(c, i), hci, rfl⟩

/-- Witness for C1: three calls A, B, C (callers 10, 20, 30, assigned ids
1, 2, 3) answered in the order C, A, B still deliver each caller its own
line. -/
theorem correlation_routes_responses_witness :
    (processResponses (issueCalls ⟨0, [], 0, []⟩ [10, 20, 30]).1
        [(3, "C"), (1, "A"), (2, "B")]).2
      = [Event.delivered 30 "C", Event.delivered 10 "A", Event.delivered 20 "B"] := by
  have h := correlation_routes_responses ⟨0, [], 0, []⟩ rfl [10, 20, 30]
      [(3, "C"), (1, "A"), (2, "B")] (by decide)
  rw [h.1]
  decide

/-! ## C2: timeout and cancellation remove the waiter before failing -/

theorem pendingGet_delete_self (p : List (Int × Nat)) (id : Int) :
    pendingGet (pendingDelete p id) id = none := by
  have hfind : List.find? (fun e => e.1 == id) (pendingDelete p id) = none := by
    rw [List.find?_eq_none]
    intro x hx
    have := (List.mem_filter.mp hx).2
    simpa using this
  simp [pendingGet, hfind]

/-- C2. For every call whose wait ends by timeout or by cancellation, the
pending entry for its Correlation ID is removed before the failure is
signalled: the handler's post-state no longer resolves the id, the event
it emits is the rejection, and a subprocess answer for that id arriving
afterwards is discarded as stale instead of being delivered to any
caller. -/
theorem timeout_abort_remove_pending (s : ClientState) (id : Int) (c : Nat)
    (hpend : pendingGet s.pending id = some c) :
    (pendingGet (timeoutFire s id).1.pending id = none ∧
      (timeoutFire s id).2 = Event.rejected id RejectReason.timedOut ∧
      ∀ raw, handleLine (timeoutFire s id).1 (some (respEnv id)) raw
        = ((timeoutFire s id).1, Event.staleDropped)) ∧
    (pendingGet (abortFire s id).1.pending id = none ∧
      (abortFire s id).2 = Event.rejected id RejectReason.aborted ∧
      ∀ raw, handleLine (abortFire s id).1 (some (respEnv id)) raw
        = ((abortFire s id).1, Event.staleDropped)) := by
  have hgone : pendingGet (pendingDelete s.pending id) id = none :=
    pendingGet_delete_self s.pending id
  refine ⟨⟨hgone, rfl, ?_⟩, ⟨hgone, rfl, ?_⟩⟩ <;>
    · intro raw
      rw [handleLine_respEnv]
      simp only [timeoutFire, abortFire, hgone]

/-- Witness for C2: with id 1 pending for caller 7, firing the timeout
removes the entry and a late answer for id 1 is discarded. -/
theorem timeout_abort_remove_pending_witness :
    pendingGet (timeoutFire ⟨1, [(1, 7)], 0, []⟩ 1).1.pending 1 = none ∧
    handleLine (timeoutFire ⟨1, [(1, 7)], 0, []⟩ 1).1 (some (respEnv 1)) "late"
      = ((timeoutFire ⟨1, [(1, 7)], 0, []⟩ 1).1, Event.staleDropped) := by
  have h := timeout_abort_remove_pending ⟨1, [(1, 7)], 0, []⟩ 1 7 (by decide)
  exact ⟨h.1.1, h.1.2.2 "late"⟩

/-! ## C7: Correlation ID uniqueness invariant -/

theorem pendingGet_none_of_bound (p : List (Int × Nat)) (m id : Int)
    (hb : ∀ k ∈ p.map Prod.fst, k ≤ m) (hgt : m < id) :
    pendingGet p id = none := by
  have hfind : List.find? (fun e => e.1 == id) p = none := by
    rw [List.find?_eq_none]
    intro x hx
    have hxk : x.1 ∈ p.map Prod.fst := List.mem_map.mpr ⟨x, hx, rfl⟩
    have := hb _ hxk
    simp only [beq_iff_eq]
    omega
  simp [pendingGet, hfind]

theorem handleLine_state_cases (s : ClientState) (parsed : Option Json) (raw : String) :
    (handleLine s parsed raw).1 = s ∨
    ∃ id, (handleLine s parsed raw).1 = { s with pending := pendingDelete s.pending id } := by
  cases parsed with
  | none => exact Or.inl rfl
  | some env =>
    by_cases h1 : hasNonNullId env
    · cases h2 : envIdNum env with
      | none => exact Or.inl (by simp [handleLine, h1, h2])
      | some id =>
        cases h3 : pendingGet s.pending id with
        | none => exact Or.inl (by simp [handleLine, h1, h2, h3])
        | some c => exact Or.inr ⟨id, by simp [handleLine, h1, h2, h3]⟩
    · exact Or.inl (by simp [handleLine, h1])

/-- The bridge invariant only depends on the client through its pending
table and counter, and is preserved by any client-local action that keeps
the counter and either keeps the pending table, deletes one key from it,
or empties it. -/
theorem BridgeInv_client_local (m : Mode) (ph : Phase) (c c2 : ClientState) (w : Int)
    (hInv : BridgeInv ⟨m, ph, c, w⟩)
    (hn : c2.nextId = c.nextId)
    (hp : c2.pending = c.pending ∨ (∃ id, c2.pending = pendingDelete c.pending id) ∨
      c2.pending = []) :
    BridgeInv ⟨m, ph, c2, w⟩ := by
  obtain ⟨hnd, hstart, hsse, hws⟩ := hInv
  have hsub : ∀ k ∈ c2.pending.map Prod.fst, k ∈ c.pending.map Prod.fst := by
    rcases hp with hp | ⟨id, hp⟩ | hp
    · rw [hp]; exact fun k hk => hk
    · rw [hp, pendingDelete_keys]
      intro k hk
      exact (List.mem_filter.mp hk).1
    · rw [hp]; intro k hk; simp at hk
  have hnd2 : (c2.pending.map Prod.fst).Nodup := by
    rcases hp with hp | ⟨id, hp⟩ | hp
    · rw [hp]; exact hnd
    · rw [hp, pendingDelete_keys]; exact hnd.filter _
    · rw [hp]; exact List.nodup_nil
  refine ⟨hnd2, ?_, ?_, ?_⟩
  · intro h
    refine ⟨fun k hk => (hstart h).1 k (hsub k hk), ?_, (hstart h).2.2⟩
    rw [hn]
    exact (hstart h).2.1
  · intro h1 h2 k hk
    rw [hn]
    exact hsse h1 h2 k (hsub k hk)
  · intro h1 h2 k hk
    exact hws h1 h2 k (hsub k hk)

/-- C7. For every reachable state of one bridge instance — either mode,
handshake included — Correlation IDs are allocated monotonically (neither
the transport counter nor the WS gateway counter ever decreases, and each
allocation returns the strict successor of its counter, so an id is never
generated twice in the instance's lifetime), at most one pending waiter
exists per Correlation ID (the invariant, which includes pairwise-distinct
pending keys, is preserved by every step and holds in the post-handshake
start state), and the id the mode's own allocation path would issue next
has no pending waiter — in particular the handshake id 1 can be taken over
by the first WS request only after the `initialize` waiter was resolved,
rejected, or the transport shut down. -/
theorem correlationId_unique_invariant (b b2 : BridgeState)
    (hInv : BridgeInv b) (hstep : BridgeStep b b2) :
    BridgeInv b2 ∧
    b.client.nextId ≤ b2.client.nextId ∧
    b.wsInternalId ≤ b2.wsInternalId ∧
    (b.phase = Phase.ready → b.mode = Mode.sse → ∀ caller,
      (callStep b.client caller).2 = b.client.nextId + 1 ∧
      pendingGet b.client.pending (b.client.nextId + 1) = none) ∧
    (b.phase = Phase.ready → b.mode = Mode.ws →
      pendingGet b.client.pending (b.wsInternalId + 1) = none) ∧
    (∀ m c0, BridgeInv (startState m c0)) := by
  have hfreshSse : b.phase = Phase.ready → b.mode = Mode.sse → ∀ caller : Nat,
      (callStep b.client caller).2 = b.client.nextId + 1 ∧
      pendingGet b.client.pending (b.client.nextId + 1) = none := by
    intro hph hm caller
    exact ⟨rfl, pendingGet_none_of_bound _ b.client.nextId _
      (hInv.2.2.1 hph hm) (by omega)⟩
  have hfreshWs : b.phase = Phase.ready → b.mode = Mode.ws →
      pendingGet b.client.pending (b.wsInternalId + 1) = none := by
    intro hph hm
    exact pendingGet_none_of_bound _ b.wsInternalId _ (hInv.2.2.2 hph hm) (by omega)
  have hstartInv : ∀ m c0, BridgeInv (startState m c0) := by
    intro m c0
    refine ⟨?_, ?_, ?_, ?_⟩
    · simp [startState, callStep, pendingSet]
    · intro h
      refine ⟨?_, rfl, rfl⟩
      intro k hk
      simp [startState, callStep, pendingSet] at hk
      exact hk
    · intro h
      exact Phase.noConfusion h
    · intro h
      exact Phase.noConfusion h
  have hmain : BridgeInv b2 ∧ b.client.nextId ≤ b2.client.nextId ∧
      b.wsInternalId ≤ b2.wsInternalId := by
    cases hstep with
    | sseCall c w caller =>
      obtain ⟨hnd, hstart, hsse, hws⟩ := hInv
      have hb : ∀ k ∈ c.pending.map Prod.fst, k ≤ c.nextId := hsse rfl rfl
      have hfresh : (c.nextId + 1) ∉ c.pending.map Prod.fst := by
        intro hmem
        have := hb _ hmem
        omega
      have hset : pendingSet c.pending (c.nextId + 1) caller
          = c.pending ++ [(c.nextId + 1, caller)] :=
        pendingSet_of_not_mem _ _ _ hfresh
      have hkeys : (pendingSet c.pending (c.nextId + 1) caller).map Prod.fst
          = c.pending.map Prod.fst ++ [c.nextId + 1] := by
        rw [hset]
        simp
      have hnodup : ((pendingSet c.pending (c.nextId + 1) caller).map Prod.fst).Nodup := by
        rw [hkeys, List.nodup_append]
        refine ⟨hnd, List.nodup_singleton _, ?_⟩
        intro k hk hk2
        simp only [List.mem_singleton] at hk2
        subst hk2
        exact hfresh hk
      have hbound : ∀ k ∈ (pendingSet c.pending (c.nextId + 1) caller).map Prod.fst,
          k ≤ c.nextId + 1 := by
        intro k hk
        rw [hkeys] at hk
        rcases List.mem_append.mp hk with hk | hk
        · have := hb k hk; omega
        · simp only [List.mem_singleton] at hk; omega
      refine ⟨⟨hnodup, ?_, ?_, ?_⟩, ?_, le_refl _⟩
      · intro h
        exact Phase.noConfusion h
      · intro h1 h2
        exact hbound
      · intro h1 h2
        exact Mode.noConfusion h2
      · show c.nextId ≤ c.nextId + 1
        omega
    | wsCall c w caller =>
      obtain ⟨hnd, hstart, hsse, hws⟩ := hInv
      have hb : ∀ k ∈ c.pending.map Prod.fst, k ≤ w := hws rfl rfl
      have hfresh : (w + 1) ∉ c.pending.map Prod.fst := by
        intro hmem
        have := hb _ hmem
        omega
      have hset : pendingSet c.pending (w + 1) caller
          = c.pending ++ [(w + 1, caller)] :=
        pendingSet_of_not_mem _ _ _ hfresh
      have hkeys : (pendingSet c.pending (w + 1) caller).map Prod.fst
          = c.pending.map Prod.fst ++ [w + 1] := by
        rw [hset]
        simp
      have hnodup : ((pendingSet c.pending (w + 1) caller).map Prod.fst).Nodup := by
        rw [hkeys, List.nodup_append]
        refine ⟨hnd, List.nodup_singleton _, ?_⟩
        intro k hk hk2
        simp only [List.mem_singleton] at hk2
        subst hk2
        exact hfresh hk
      have hbound : ∀ k ∈ (pendingSet c.pending (w + 1) caller).map Prod.fst,
          k ≤ w + 1 := by
        intro k hk
        rw [hkeys] at hk
        rcases List.mem_append.mp hk with hk | hk
        · have := hb k hk; omega
        · simp only [List.mem_singleton] at hk; omega
      refine ⟨⟨hnodup, ?_, ?_, ?_⟩, le_refl _, ?_⟩
      · intro h
        exact Phase.noConfusion h
      · intro h1 h2
        exact Mode.noConfusion h2
      · intro h1 h2
        exact hbound
      · show w ≤ w + 1
        omega
    | handshakeDone m c w hg =>
      obtain ⟨hnd, hstart, hsse, hws⟩ := hInv
      have hkeys : ∀ k ∈ c.pending.map Prod.fst, False := by
        intro k hk
        have hk1 := (hstart rfl).1 k hk
        subst hk1
        obtain ⟨x, hx⟩ := pendingGet_isSome_of_mem _ _ hk
        rw [hg] at hx
        exact Option.noConfusion hx
      refine ⟨⟨hnd, ?_, ?_, ?_⟩, le_refl _, le_refl _⟩
      · intro h
        exact Phase.noConfusion h
      · intro h1 h2 k hk
        exact (hkeys k hk).elim
      · intro h1 h2 k hk
        exact (hkeys k hk).elim
    | handle m ph c w parsed raw =>
      have hn : (handleLine c parsed raw).1.nextId = c.nextId := by
        rcases handleLine_state_cases c parsed raw with h | ⟨id, h⟩ <;> rw [h]
      have hp : (handleLine c parsed raw).1.pending = c.pending ∨
          (∃ id, (handleLine c parsed raw).1.pending = pendingDelete c.pending id) ∨
          (handleLine c parsed raw).1.pending = [] := by
        rcases handleLine_state_cases c parsed raw with h | ⟨id, h⟩
        · exact Or.inl (by rw [h])
        · exact Or.inr (Or.inl ⟨id, by rw [h]⟩)
      exact ⟨BridgeInv_client_local m ph c _ w hInv hn hp, le_of_eq hn.symm, le_refl _⟩
    | timeout m ph c w id =>
      exact ⟨BridgeInv_client_local m ph c _ w hInv rfl (Or.inr (Or.inl ⟨id, rfl⟩)),
        le_refl _, le_refl _⟩
    | abort m ph c w id =>
      exact ⟨BridgeInv_client_local m ph c _ w hInv rfl (Or.inr (Or.inl ⟨id, rfl⟩)),
        le_refl _, le_refl _⟩
    | writeFail m ph c w id =>
      exact ⟨BridgeInv_client_local m ph c _ w hInv rfl (Or.inr (Or.inl ⟨id, rfl⟩)),
        le_refl _, le_refl _⟩
    | subscribe m ph c w throws =>
      exact ⟨BridgeInv_client_local m ph c _ w hInv rfl (Or.inl rfl), le_refl _, le_refl _⟩
    | unsubscribe m ph c w subId =>
      exact ⟨BridgeInv_client_local m ph c _ w hInv rfl (Or.inl rfl), le_refl _, le_refl _⟩
    | closed m ph c w =>
      exact ⟨BridgeInv_client_local m ph c _ w hInv rfl (Or.inr (Or.inr rfl)),
        le_refl _, le_refl _⟩
  exact ⟨hmain.1, hmain.2.1, hmain.2.2, hfreshSse, hfreshWs, hstartInv⟩

/-- Witness for C7: in a ready WS-mode bridge the first gateway request
takes id 1 (the handshake id, already resolved — not pending), and the
step preserves the invariant. -/
theorem correlationId_unique_invariant_witness :
    BridgeInv ⟨Mode.ws, Phase.ready, callWithId ⟨1, [], 0, []⟩ ((0 : Int) + 1) 7,
      (0 : Int) + 1⟩ ∧
    pendingGet ([] : List (Int × Nat)) ((0 : Int) + 1) = none := by
  have h := correlationId_unique_invariant ⟨Mode.ws, Phase.ready, ⟨1, [], 0, []⟩, 0⟩
      ⟨Mode.ws, Phase.ready, callWithId ⟨1, [], 0, []⟩ (0 + 1) 7, 0 + 1⟩
      (by decide) (BridgeStep.wsCall ⟨1, [], 0, []⟩ 0 7)
  exact ⟨h.1, h.2.2.2.2.1 rfl rfl⟩

/-! ## C3: `POST /` status mapping -/

/-- C3. For every `POST /` request: failed auth gives 401; an unparsable
body gives 400; a parsed body whose `method` is absent or falsy gives 400;
a failed or timed-out subprocess call gives 502; otherwise the status is
200 and the body is the raw subprocess response line, verbatim. -/
theorem post_status_mapping (secret : Bytes) (header : Option Bytes)
    (parsed : Option Json) (result : CallOutcome) :
    (isAuthorized secret header = false →
      handlePost secret header parsed result = { status := 401, body := "unauthorized" }) ∧
    (isAuthorized secret header = true → parsed = none →
      handlePost secret header parsed result = { status := 400, body := "invalid JSON body" }) ∧
    (∀ body, isAuthorized secret header = true → parsed = some body →
      bodyHasMethod body = false →
      handlePost secret header parsed result = { status := 400, body := "missing method" }) ∧
    (∀ body, isAuthorized secret header = true → parsed = some body →
      bodyHasMethod body = true → result = CallOutcome.failed →
      handlePost secret header parsed result = { status := 502, body := "rpc call failed" }) ∧
    (∀ body respLine, isAuthorized secret header = true → parsed = some body →
      bodyHasMethod body = true → result = CallOutcome.ok respLine →
      handlePost secret header parsed result = { status := 200, body := respLine }) := by
  refine ⟨?_, ?_, ?_, ?_, ?_⟩
  · intro hauth
    simp [handlePost, hauth]
  · intro hauth hparse
    simp [handlePost, hauth, hparse]
  · intro body hauth hparse hm
    simp [handlePost, hauth, hparse, hm]
  · intro body hauth hparse hm hres
    simp [handlePost, hauth, hparse, hm, hres]
  · intro body respLine hauth hparse hm hres
    simp [handlePost, hauth, hparse, hm, hres]

/-- Witness for C3: with secret "shh" (bytes 115 104 104) and a matching
header, an `echo` body and a successful call yield 200 with the raw
response line; without the header, 401. -/
theorem post_status_mapping_witness :
    handlePost [115, 104, 104] (some [115, 104, 104])
        (some (Json.obj [("method", Json.str "echo")])) (CallOutcome.ok "RAW")
      = { status := 200, body := "RAW" } ∧
    handlePost [115, 104, 104] none
        (some (Json.obj [("method", Json.str "echo")])) (CallOutcome.ok "RAW")
      = { status := 401, body := "unauthorized" } := by
  refine ⟨?_, ?_⟩
  · exact (post_status_mapping [115, 104, 104] (some [115, 104, 104])
      (some (Json.obj [("method", Json.str "echo")])) (CallOutcome.ok "RAW")).2.2.2.2
      (Json.obj [("method", Json.str "echo")]) "RAW" (by decide) rfl (by decide) rfl
  · exact (post_status_mapping [115, 104, 104] none
      (some (Json.obj [("method", Json.str "echo")])) (CallOutcome.ok "RAW")).1 (by decide)

/-! ## C4: auth guard — functional behaviour and constant-time scan -/

theorem natLor_eq_zero (m n : Nat) : m ||| n = 0 ↔ m = 0 ∧ n = 0 := by
  constructor
  · intro h
    have hbit : ∀ i, Nat.testBit m i = false ∧ Nat.testBit n i = false := by
      intro i
      have h2 : (Nat.testBit m i || Nat.testBit n i) = false := by
        have := congrArg (fun t => Nat.testBit t i) h
        simpa [Nat.testBit_lor, Nat.zero_testBit] using this
      exact ⟨(Bool.or_eq_false_iff.mp h2).1, (Bool.or_eq_false_iff.mp h2).2⟩
    exact ⟨Nat.zero_of_testBit_eq_false (fun i => (hbit i).1),
      Nat.zero_of_testBit_eq_false (fun i => (hbit i).2)⟩
  · rintro ⟨h1, h2⟩
    subst h1; subst h2
    rfl

theorem ctScan_acc_eq_zero (l : List (Nat × Nat)) :
    ((ctScan l).1 = 0) ↔ ∀ p ∈ l, p.1 = p.2 := by
  induction l with
  | nil => simp [ctScan]
  | cons q rest ih =>
    obtain ⟨x, y⟩ := q
    simp only [ctScan, List.mem_cons]
    rw [natLor_eq_zero]
    constructor
    · rintro ⟨h1, h2⟩
      intro p hp
      rcases hp with hp | hp
      · subst hp
        simpa [Nat.xor_eq_zero] using h2
      · exact ih.mp h1 p hp
    · intro h
      refine ⟨ih.mpr (fun p hp => h p (Or.inr hp)), ?_⟩
      have := h (x, y) (Or.inl rfl)
      simpa [Nat.xor_eq_zero] using this

theorem ctScan_steps (l : List (Nat × Nat)) : (ctScan l).2 = l.length := by
  induction l with
  | nil => rfl
  | cons q rest ih => simp [ctScan, ih]

theorem zip_forall_eq_iff (a b : Bytes) (hlen : a.length = b.length) :
    (∀ p ∈ a.zip b, p.1 = p.2) ↔ a = b := by
  induction a generalizing b with
  | nil =>
    cases b with
    | nil => simp
    | cons y ys => simp at hlen
  | cons x xs ih =>
    cases b with
    | nil => simp at hlen
    | cons y ys =>
      simp only [List.zip_cons_cons, List.mem_cons, List.cons.injEq]
      constructor
      · intro h
        refine ⟨h (x, y) (Or.inl rfl), ?_⟩
        exact (ih ys (by simpa using hlen)).mp (fun p hp => h p (Or.inr hp))
      · rintro ⟨hxy, hrest⟩
        intro p hp
        rcases hp with hp | hp
        · subst hp; exact hxy
        · exact (ih ys (by simpa using hlen)).mpr hrest p hp

theorem constantTimeEqual_eq_true_iff (a b : Bytes) :
    constantTimeEqual a b = true ↔ a = b := by
  by_cases hlen : a.length = b.length
  · have hbne : (a.length != b.length) = false := by simp [hlen]
    simp only [constantTimeEqual, hbne, Bool.false_eq_true, if_false, timingSafeEqual,
      beq_iff_eq]
    rw [ctScan_acc_eq_zero, zip_forall_eq_iff a b hlen]
  · have hbne : (a.length != b.length) = true := by simp [hlen]
    simp only [constantTimeEqual, hbne, if_true, Bool.false_eq_true, false_iff]
    intro hcontra
    exact hlen (by rw [hcontra])

/-- C4. The auth guard authorizes every request when no secret is
configured; with a secret configured, a request is authorized iff its
header value is byte-for-byte equal to the secret (which entails equal
byte length); and the underlying comparison scan performs a number of byte
comparisons that depends only on the length of the header value, not on
where the first mismatching byte occurs. -/
theorem auth_guard_correct (secret : Bytes) (header : Option Bytes) :
    (secret = [] → isAuthorized secret header = true) ∧
    (secret ≠ [] → (isAuthorized secret header = true ↔ header = some secret)) ∧
    (∀ v w : Bytes, v.length = w.length →
      timingSafeEqualCost v secret = timingSafeEqualCost w secret) := by
  refine ⟨?_, ?_, ?_⟩
  · intro h
    simp [isAuthorized, h]
  · intro hne
    have hsec : secret.isEmpty = false := by simpa [List.isEmpty_iff] using hne
    cases header with
    | none => simp [isAuthorized, hsec]
    | some v =>
      simp only [isAuthorized, hsec, Bool.false_eq_true, if_false, Option.some.injEq]
      rw [Bool.and_eq_true]
      constructor
      · rintro ⟨hv, hct⟩
        exact (constantTimeEqual_eq_true_iff v secret).mp hct
      · intro h
        subst h
        have hv : v.isEmpty = false := by simpa [List.isEmpty_iff] using hne
        simp [hv, (constantTimeEqual_eq_true_iff v v).mpr rfl]
  · intro v w hvw
    unfold timingSafeEqualCost
    rw [ctScan_steps, ctScan_steps, List.length_zip, List.length_zip, hvw]

/-- Witness for C4: secret "shh" (bytes 115 104 104): the exact header is
authorized, and the comparison scan performs the same number of steps on
two same-length candidate values differing at the first byte. -/
theorem auth_guard_correct_witness :
    isAuthorized [115, 104, 104] (some [115, 104, 104]) = true ∧
    timingSafeEqualCost [0, 104, 104] [115, 104, 104]
      = timingSafeEqualCost [115, 104, 0] [115, 104, 104] := by
  have h := auth_guard_correct [115, 104, 104] (some [115, 104, 104])
  exact ⟨(h.2.1 (by decide)).mpr rfl, h.2.2 [0, 104, 104] [115, 104, 0] (by decide)⟩

/-! ## C5: which lines are discarded, corrected -/

/-- Counterexample to C5 as stated: the line `\x7b"foo":1\x7d` parses,
has neither an `id` nor any `method` at all, yet `_handleLine` delivers
it to subscriber 1 as a notification instead of discarding it. -/
theorem parsed_line_without_method_reaches_subscriber :
    handleLine ⟨0, [], 1, [(1, false)]⟩ (some (Json.obj [("foo", Json.num 1)]))
        "\x7b\x22foo\x22:1\x7d"
      = (⟨0, [], 1, [(1, false)]⟩, Event.notification [1] []) := by
  rfl

/-- C5 (amended). Every inbound line that fails to parse as JSON is
discarded with a logged warning, reaching neither a pending caller nor any
subscriber, and a parsed line carrying a non-null `id` is never dispatched
to subscribers; however a parsed line without a non-null `id` is dispatched
to the current subscribers as a notification even when it has no decodable
`method`. -/
theorem invalid_line_discarded_amended (s : ClientState) (raw : String) :
    (handleLine s none raw = (s, Event.failedDecode)) ∧
    (∀ env, hasNonNullId env = false →
      (handleLine s (some env) raw).1 = s ∧
      (handleLine s (some env) raw).2
        = Event.notification (notifySubscribers s.subscribers).1
            (notifySubscribers s.subscribers).2) ∧
    (∀ env d w, hasNonNullId env = true →
      (handleLine s (some env) raw).2 ≠ Event.notification d w) := by
  refine ⟨rfl, ?_, ?_⟩
  · intro env h
    exact ⟨by simp [handleLine, h], by simp [handleLine, h]⟩
  · intro env d w h
    cases h2 : envIdNum env with
    | none => simp [handleLine, h, h2]
    | some id =>
      cases h3 : pendingGet s.pending id with
      | none => simp [handleLine, h, h2, h3]
      | some c => simp [handleLine, h, h2, h3]

/-- Witness for the amended C5, at a state with one subscriber. -/
theorem invalid_line_discarded_amended_witness :
    handleLine ⟨0, [], 1, [(1, false)]⟩ none "x"
      = (⟨0, [], 1, [(1, false)]⟩, Event.failedDecode) ∧
    (handleLine ⟨0, [], 1, [(1, false)]⟩ (some (Json.obj [("method", Json.num 123)])) "x").2
      = Event.notification [1] [] ∧
    (handleLine ⟨0, [], 1, [(1, false)]⟩ (some (respEnv 5)) "x").2
      ≠ Event.notification [1] [] := by
  have h := invalid_line_discarded_amended ⟨0, [], 1, [(1, false)]⟩ "x"
  refine ⟨h.1, ?_, h.2.2 (respEnv 5) [1] [] rfl⟩
  exact (h.2.1 (Json.obj [("method", Json.num 123)]) rfl).2.trans (by decide)

/-! ## C9: a null `id` means notification -/

theorem notifySubscribers_mem (subs : List (Nat × Bool)) (subId : Nat) (throws : Bool)
    (h : (subId, throws) ∈ subs) :
    subId ∈ (notifySubscribers subs).1 ∨ subId ∈ (notifySubscribers subs).2 := by
  induction subs with
  | nil => simp at h
  | cons e rest ih =>
    obtain ⟨eid, et⟩ := e
    rcases List.mem_cons.mp h with heq | hmem
    · cases heq
      cases throws with
      | true => right; simp [notifySubscribers]
      | false => left; simp [notifySubscribers]
    · rcases ih hmem with hd | hw
      · left
        cases et <;> simp [notifySubscribers, hd]
      · right
        cases et <;> simp [notifySubscribers, hw]

/-- C9. An inbound envelope whose `id` field is present but null is
dispatched as a notification to every current subscriber (each subscriber
is either delivered to or, if its callback throws, warned about) and is
never matched against the pending-call table: the state, including the
pending table, is unchanged. -/
theorem null_id_dispatched_as_notification (s : ClientState)
    (fields : List (String × Json)) (raw : String)
    (hid : fields.lookup "id" = some Json.null) :
    (handleLine s (some (Json.obj fields)) raw).1 = s ∧
    (handleLine s (some (Json.obj fields)) raw).2
      = Event.notification (notifySubscribers s.subscribers).1
          (notifySubscribers s.subscribers).2 ∧
    ∀ subId throws, (subId, throws) ∈ s.subscribers →
      subId ∈ (notifySubscribers s.subscribers).1 ∨
      subId ∈ (notifySubscribers s.subscribers).2 := by
  have h : hasNonNullId (Json.obj fields) = false := by
    simp [hasNonNullId, hid]
  exact ⟨by simp [handleLine, h], by simp [handleLine, h],
    fun subId throws hmem => notifySubscribers_mem s.subscribers subId throws hmem⟩

/-- Witness for C9: a null-id envelope in a state with a pending call and
two subscribers (the second one throwing) leaves the state unchanged and
fans out to both subscribers. -/
theorem null_id_dispatched_as_notification_witness :
    (handleLine ⟨0, [(4, 9)], 2, [(1, false), (2, true)]⟩
        (some (Json.obj [("id", Json.null), ("method", Json.str "n")])) "x").1
      = ⟨0, [(4, 9)], 2, [(1, false), (2, true)]⟩ ∧
    (handleLine ⟨0, [(4, 9)], 2, [(1, false), (2, true)]⟩
        (some (Json.obj [("id", Json.null), ("method", Json.str "n")])) "x").2
      = Event.notification [1] [2] := by
  have h := null_id_dispatched_as_notification ⟨0, [(4, 9)], 2, [(1, false), (2, true)]⟩
      [("id", Json.null), ("method", Json.str "n")] "x" rfl
  exact ⟨h.1, h.2.1.trans (by decide)⟩

/-! ## C10: a throwing subscriber callback is isolated -/

theorem notifySubscribers_eq_filter (subs : List (Nat × Bool)) :
    notifySubscribers subs
      = ((subs.filter (fun e => !e.2)).map Prod.fst,
         (subs.filter (fun e => e.2)).map Prod.fst) := by
  induction subs with
  | nil => rfl
  | cons e rest ih =>
    obtain ⟨eid, et⟩ := e
    cases et <;> simp [notifySubscribers, ih, List.filter_cons]

/-- C10. During a notification fan-out, a subscriber whose callback throws
causes only its own delivery to be dropped with a logged warning: the
delivered list is exactly the non-throwing subscribers and the warned list
exactly the throwing ones, both in registration order, so delivery
proceeds to every remaining subscriber. -/
theorem throwing_subscriber_isolated (s : ClientState) (m raw : String) :
    (handleLine s (some (Json.obj [("method", Json.str m)])) raw).2
      = Event.notification
          ((s.subscribers.filter (fun e => !e.2)).map Prod.fst)
          ((s.subscribers.filter (fun e => e.2)).map Prod.fst) := by
  have h : hasNonNullId (Json.obj [("method", Json.str m)]) = false := rfl
  simp [handleLine, h, notifySubscribers_eq_filter]

/-! ## C8: bounded subscriber queues drop the newest notification -/

theorem broadcastNotification_append (l1 l2 : List GoSubscriber) (line : String) :
    broadcastNotification (l1 ++ l2) line
      = ((broadcastNotification l1 line).1 ++ (broadcastNotification l2 line).1,
         (broadcastNotification l1 line).2 ++ (broadcastNotification l2 line).2) := by
  induction l1 with
  | nil => simp [broadcastNotification]
  | cons e rest ih =>
    simp only [List.cons_append, broadcastNotification, ih]
    cases (sendOrDrop line e).2 <;> simp <;>
      exact ⟨congrArg Prod.fst ih, congrArg Prod.snd ih⟩

/-- C8. When a notification is broadcast and one subscriber's bounded
queue (capacity 256) is full, the newest notification for that subscriber
is dropped and its id logged, while the broadcast delivers independently
to every other subscriber: the result decomposes pointwise (the
nonblocking send to each subscriber depends only on that subscriber), a
full subscriber is left unchanged with its id in the warned list, and a
subscriber with room receives the line appended to its queue. -/
theorem slow_subscriber_drop_newest (pre post : List GoSubscriber)
    (sub : GoSubscriber) (line : String) :
    (broadcastNotification (pre ++ sub :: post) line).1
      = (broadcastNotification pre line).1
        ++ (sendOrDrop line sub).1 :: (broadcastNotification post line).1 ∧
    (sub.queue.length ≥ subscriberQueueCap →
      (sendOrDrop line sub).1 = sub ∧
      sub.id ∈ (broadcastNotification (pre ++ sub :: post) line).2) ∧
    (sub.queue.length < subscriberQueueCap →
      (sendOrDrop line sub).1.queue = sub.queue ++ [line]) := by
  have hmid : broadcastNotification (sub :: post) line
      = ((sendOrDrop line sub).1 :: (broadcastNotification post line).1,
         if (sendOrDrop line sub).2 then sub.id :: (broadcastNotification post line).2
         else (broadcastNotification post line).2) := by
    simp [broadcastNotification]
  refine ⟨?_, ?_, ?_⟩
  · rw [broadcastNotification_append, hmid]
  · intro hfull
    have hdrop : sendOrDrop line sub = (sub, true) := by
      simp [sendOrDrop, Nat.not_lt.mpr hfull]
    refine ⟨by rw [hdrop], ?_⟩
    rw [broadcastNotification_append, hmid, hdrop]
    simp
  · intro hroom
    simp [sendOrDrop, hroom]

/-- Witness for C8: two subscribers, the first with a full queue of 256,
the second empty — the first drops (and is warned), the second receives. -/
theorem slow_subscriber_drop_newest_witness :
    (sendOrDrop "n" ⟨1, List.replicate 256 "q"⟩).1 = ⟨1, List.replicate 256 "q"⟩ ∧
    (1 : Int) ∈ (broadcastNotification
        [⟨1, List.replicate 256 "q"⟩, ⟨2, []⟩] "n").2 ∧
    (sendOrDrop "n" (⟨2, []⟩ : GoSubscriber)).1.queue = [] ++ ["n"] := by
  have h := slow_subscriber_drop_newest [] [⟨2, []⟩] ⟨1, List.replicate 256 "q"⟩ "n"
  have h2 := slow_subscriber_drop_newest [⟨1, List.replicate 256 "q"⟩] []
      (⟨2, []⟩ : GoSubscriber) "n"
  exact ⟨(h.2.1 (by rw [List.length_replicate]; decide)).1,
    (h.2.1 (by rw [List.length_replicate]; decide)).2,
    h2.2.2 (by decide)⟩

/-! ## C6: line framer behaviour on oversized lines -/

theorem takeLine_append (line rest : Bytes) (h : ∀ b ∈ line, b ≠ 10) :
    takeLine (line ++ 10 :: rest) = some (line, rest) := by
  induction line with
  | nil => simp [takeLine]
  | cons b l ih =>
    have hb : (b == 10) = false := by simpa using h b (List.mem_cons_self _ _)
    have hl := ih (fun x hx => h x (List.mem_cons_of_mem _ hx))
    simp [takeLine, hb, hl]

theorem framerLoop_nil (fuel : Nat) : framerLoop fuel [] = ([], []) := by
  cases fuel <;> rfl

theorem framerLoop_single (fuel : Nat) (line : Bytes) (hne : line ≠ [])
    (h10 : ∀ b ∈ line, b ≠ 10) (hcr : line.getLast? ≠ some 13) (hfuel : 0 < fuel) :
    framerLoop fuel (line ++ [10]) = ([line], []) := by
  cases fuel with
  | zero => omega
  | succ f =>
    have ht : takeLine (line ++ 10 :: []) = some (line, []) := takeLine_append line [] h10
    have hstrip : stripCR line = line := by
      simp only [stripCR, show (line.getLast? == some 13) = false by simpa using hcr,
        Bool.false_eq_true, if_false]
    have hemp : line.isEmpty = false := by simpa [List.isEmpty_iff] using hne
    simp [framerLoop, ht, hstrip, hemp, framerLoop_nil]

theorem framerLoop_lines_ne_nil (fuel : Nat) (buf : Bytes) :
    ∀ l ∈ (framerLoop fuel buf).1, l ≠ [] := by
  induction fuel generalizing buf with
  | zero => simp [framerLoop]
  | succ f ih =>
    intro l hl
    cases ht : takeLine buf with
    | none => simp [framerLoop, ht] at hl
    | some pr =>
      obtain ⟨l0, rest⟩ := pr
      simp only [framerLoop, ht] at hl
      by_cases he : (stripCR l0).isEmpty
      · rw [if_pos he] at hl
        exact ih rest l hl
      · rw [if_neg he] at hl
        rcases List.mem_cons.mp hl with hl | hl
        · subst hl
          simpa [List.isEmpty_iff] using he
        · exact ih rest l hl

/-- Evaluation rule for `_onStdoutData` on a nonempty chunk consumed from
an empty buffer, staying under the safety limit and leaving a small
remainder. -/
theorem onStdoutData_eval (maxB : Nat) (chunk : Bytes)
    (hemp : chunk.isEmpty = false)
    (hbound : ¬(chunk.length > maxB * 2))
    (lines : List Bytes) (rest : Bytes)
    (hloop : framerLoop chunk.length chunk = (lines, rest))
    (hrest : ¬(rest.length > maxB)) :
    onStdoutData maxB [] chunk = (lines, rest) := by
  rw [onStdoutData, if_neg (by rw [hemp]; exact Bool.false_ne_true), List.nil_append]
  rw [if_neg hbound, hloop]
  show (if rest.length > maxB then (lines, ([] : Bytes)) else (lines, rest)) = (lines, rest)
  rw [if_neg hrest]

/-- Counterexample to C6 as stated: a complete 15 MiB line (here 15728640
bytes of `A`) arriving in one chunk together with its newline is within
the 2x buffer safety limit, so the framer yields the whole oversized line
to `_handleLine` instead of dropping it — the maximum line size is only
enforced against the unterminated buffer tail. -/
theorem oversized_line_yielded :
    (onStdoutData maxLineBytes [] (List.replicate 15728640 65 ++ [10])).1
      = [List.replicate 15728640 65] ∧
    (List.replicate 15728640 65).length > maxLineBytes := by
  have hmax : maxLineBytes = 10485760 := rfl
  have hlen : (List.replicate 15728640 65 ++ [10] : Bytes).length = 15728641 := by
    rw [List.length_append, List.length_replicate, List.length_cons, List.length_nil]
  have hne : List.replicate 15728640 65 ≠ ([] : Bytes) := by
    intro h
    have h2 := congrArg List.length h
    rw [List.length_replicate, List.length_nil] at h2
    exact absurd h2 (by omega)
  have hne2 : (List.replicate 15728640 65 ++ [10] : Bytes) ≠ [] := by
    intro h
    have h2 := congrArg List.length h
    rw [hlen, List.length_nil] at h2
    exact absurd h2 (by omega)
  have hemp : (List.replicate 15728640 65 ++ [10] : Bytes).isEmpty = false := by
    cases hI : (List.replicate 15728640 65 ++ [10] : Bytes).isEmpty with
    | false => rfl
    | true => exact absurd (List.isEmpty_iff.mp hI) hne2
  have h10 : ∀ b ∈ List.replicate 15728640 65, b ≠ 10 := by
    intro b hb
    rw [List.eq_of_mem_replicate hb]
    omega
  have hcr : (List.replicate 15728640 65).getLast? ≠ some 13 := by
    intro hc
    obtain ⟨hx, heq⟩ := List.mem_getLast?_eq_getLast hc
    have hmem : (13 : Nat) ∈ List.replicate 15728640 65 := heq ▸ List.getLast_mem hx
    have h13 := List.eq_of_mem_replicate hmem
    exact absurd h13 (by omega)
  have hloop : framerLoop (List.replicate 15728640 65 ++ [10] : Bytes).length
      (List.replicate 15728640 65 ++ [10]) = ([List.replicate 15728640 65], []) := by
    refine framerLoop_single _ _ hne h10 hcr ?_
    rw [hlen]
    omega
  constructor
  · rw [onStdoutData_eval maxLineBytes (List.replicate 15728640 65 ++ [10]) hemp
      (by rw [hlen, hmax]; omega) [List.replicate 15728640 65] [] hloop
      (by rw [List.length_nil, hmax]; omega)]
  · rw [List.length_replicate, hmax]
    omega

/-- C6 (amended). The framer never yields an empty line, and it drops an
oversized line only when the line accumulates in the buffer without a
newline: whenever the retained buffer tail after a chunk would exceed the
maximum it is discarded with a warning (so the retained buffer never
exceeds the maximum), and a subsequent complete valid line arriving after
such a reset is still yielded; a complete oversized line already
terminated by a newline inside the buffer (within the 2x safety limit) is
yielded rather than dropped. -/
theorem framer_drop_and_resync (maxB : Nat) (buffer chunk line : Bytes) :
    (∀ l ∈ (onStdoutData maxB buffer chunk).1, l ≠ []) ∧
    (buffer.length ≤ maxB → (onStdoutData maxB buffer chunk).2.length ≤ maxB) ∧
    (line ≠ [] → (∀ b ∈ line, b ≠ 10) → line.getLast? ≠ some 13 →
      line.length + 1 ≤ maxB * 2 →
      onStdoutData maxB [] (line ++ [10]) = ([line], [])) := by
  refine ⟨?_, ?_, ?_⟩
  · intro l hl
    simp only [onStdoutData] at hl
    split at hl
    · simp at hl
    · split at hl
      · simp at hl
      · split at hl
        · exact framerLoop_lines_ne_nil _ _ l hl
        · exact framerLoop_lines_ne_nil _ _ l hl
  · intro hbuf
    simp only [onStdoutData]
    split
    · exact hbuf
    · split
      · simp
      · split
        next hgt => simp
        next hgt => exact Nat.le_of_not_lt hgt
  · intro hne h10 hcr hlen
    have hemp : (line ++ [10]).isEmpty = false := by
      simp [List.isEmpty_iff]
    have hloop : framerLoop (line ++ [10]).length (line ++ [10]) = ([line], []) := by
      refine framerLoop_single _ _ hne h10 hcr ?_
      simp
    rw [onStdoutData, if_neg (by simp [hemp]), List.nil_append]
    rw [if_neg (by simp only [List.length_append, List.length_cons, List.length_nil]; omega)]
    rw [hloop]
    simp

/-- Witness for the amended C6: a short valid line is yielded from an
empty buffer, and a bounded buffer stays bounded. -/
theorem framer_drop_and_resync_witness :
    onStdoutData 5 [] ([65, 66] ++ [10]) = ([[65, 66]], []) ∧
    (onStdoutData 5 [70, 70, 70] [71, 71, 71]).2.length ≤ 5 := by
  have h := framer_drop_and_resync 5 [70, 70, 70] [71, 71, 71] [65, 66]
  have h2 := framer_drop_and_resync 5 [] ([65, 66] ++ [10]) [65, 66]
  exact ⟨h2.2.2 (by decide) (by decide) (by decide) (by decide), h.2.1 (by decide)⟩
